import Mathlib

/-!
Verification development for the forum-rs repository: a shallow embedding of
the ThreadGraph forest builder (`src/graph.rs`), the post data model
(`src/forum_thread.rs`), the text normalization pipeline (`src/globals.rs`,
`src/utils/processing.rs`) and the chunked JSONL writer (`src/utils/writer.rs`),
together with theorems settling the specification's claims about them.

External collaborators (the serde JSON parser and the huggingface tokenizer)
are modelled as function parameters, as the specification treats them as
stateless external services.
-/

set_option autoImplicit false

namespace ForumRs

/-! ## Data model: `Post` (src/forum_thread.rs) -/

/-- Embeds `struct Post` from src/forum_thread.rs: id, is_thread flag,
body text, parent id and (operationally unused) root id. -/
structure Post where
  id : String
  is_thread : Bool
  pagetext : String
  parent_post_id : String
  root_post_id : String
deriving DecidableEq, Repr, Inhabited

/-- Embeds `Post::placeholder`: a self-parented post with empty pagetext and
`is_thread = true`, synthesized for a parent id that was never observed. -/
def Post.placeholder (id : String) : Post :=
  { id := id
    is_thread := true
    pagetext := ""
    parent_post_id := id
    root_post_id := id }

/-- Embeds `struct JsonStruct` from src/forum_thread.rs: the five string
fields deserialized from one input line. -/
structure JsonStruct where
  id : String
  is_thread : String
  pagetext : String
  parent_post_id : String
  root_post_id : String
deriving DecidableEq, Repr

/-- Embeds `Post::from_json_struct`: always succeeds, mapping `is_thread`
to the boolean test of equality with the exact string "Y". -/
def Post.from_json_struct (json : JsonStruct) : Option Post :=
  some
    { id := json.id
      is_thread := json.is_thread == "Y"
      pagetext := json.pagetext
      parent_post_id := json.parent_post_id
      root_post_id := json.root_post_id }

/-- Embeds the line pipeline of `process_single_file` (src/sender.rs):
each line is parsed by serde (modelled by the parameter `parse`, which
succeeds exactly on well-formed JSON lines carrying all five string fields)
and converted via `Post.from_json_struct`; failures are filtered out. -/
def process_single_file (parse : String → Option JsonStruct) (lines : List String) : List Post :=
  lines.filterMap (fun line => (parse line).bind Post.from_json_struct)

/-! ## ThreadGraph (src/graph.rs)

The petgraph `Graph<String, ()>` arena is embedded as the list of node
weights (`nodes`, position = `NodeIndex`) plus the list of edges in
insertion order. The `HashMap<String, NodeIndex>` is embedded as an
association list queried by `mapFind`; keys are only ever inserted when
absent, so the representation is exact. -/

/-- Embeds `struct ThreadGraph`: petgraph node weights and edges, the
id-to-index map, the tracked root indices (`threads`) and the parallel
payload array (`allthreads`). -/
structure ThreadGraph where
  nodes : List String
  edges : List (Nat × Nat)
  node_map : List (String × Nat)
  threads : List Nat
  allthreads : List Post
deriving DecidableEq, Repr

/-- Embeds `ThreadGraph::new` (capacity hints have no observable effect). -/
def emptyGraph : ThreadGraph :=
  { nodes := [], edges := [], node_map := [], threads := [], allthreads := [] }

/-- Lookup in the association list embedding of `HashMap<String, NodeIndex>`. -/
def mapFind : List (String × Nat) → String → Option Nat
  | [], _ => none
  | e :: rest, id => if e.1 = id then some e.2 else mapFind rest id

/-- Embeds `ThreadGraph::add_node`: return the existing index when the id is
already mapped (discarding the argument), otherwise append a fresh node,
push the payload and record the id-to-index entry. -/
def ThreadGraph.add_node (g : ThreadGraph) (post : Post) : Nat × ThreadGraph :=
  match mapFind g.node_map post.id with
  | some idx => (idx, g)
  | none =>
    let idx := g.nodes.length
    (idx, { g with
              nodes := g.nodes ++ [post.id]
              allthreads := g.allthreads ++ [post]
              node_map := (post.id, idx) :: g.node_map })

/-- Embeds `ThreadGraph::add_threads`: push a root index. -/
def ThreadGraph.add_threads (g : ThreadGraph) (idx : Nat) : ThreadGraph :=
  { g with threads := g.threads ++ [idx] }

/-- Embeds `ThreadGraph::is_in_map`. -/
def ThreadGraph.is_in_map (g : ThreadGraph) (id : String) : Bool :=
  (mapFind g.node_map id).isSome

/-- Embeds `ThreadGraph::add_edge`: if `from_id` is unmapped, first add a
placeholder node for it and register it as a root; then append the edge
between the mapped indices. The `.expect` on the `to_id` lookup (a panic
when `to_id` was never inserted) is modelled by returning `none`. -/
def ThreadGraph.add_edge (g : ThreadGraph) (from_id to_id : String) : Option ThreadGraph :=
  let g1 :=
    if (mapFind g.node_map from_id).isSome then g
    else
      let r := g.add_node (Post.placeholder from_id)
      r.2.add_threads r.1
  match mapFind g1.node_map from_id, mapFind g1.node_map to_id with
  | some fi, some ti => some { g1 with edges := g1.edges ++ [(fi, ti)] }
  | _, _ => none

/-- Outgoing neighbors of `v`, in petgraph iteration order (most recently
inserted edge first). -/
def ThreadGraph.neighbors (g : ThreadGraph) (v : Nat) : List Nat :=
  ((g.edges.filter (fun e => e.1 == v)).map (fun e => e.2)).reverse

/-- Fuel bound for the DFS loop: ample for every pop the stack can see. -/
def dfsFuel (g : ThreadGraph) : Nat :=
  (g.nodes.length + g.edges.length) * (g.edges.length + 1) + g.nodes.length + g.edges.length + 1

/-- Embeds the loop of `petgraph::visit::Dfs::next`: pop a node; if it is
not yet discovered, mark it, push its undiscovered successors and emit it.
The fuel only bounds the iteration count; every claim below uses runs well
within it. -/
def dfsLoop (g : ThreadGraph) : Nat → List Nat → List Nat → List Nat
  | 0, _, _ => []
  | _ + 1, [], _ => []
  | fuel + 1, v :: rest, discovered =>
    if v ∈ discovered then dfsLoop g fuel rest discovered
    else
      v :: dfsLoop g fuel
        (((g.neighbors v).filter (fun w => !(discovered.contains w))).reverse ++ rest)
        (v :: discovered)

/-- Depth-first preorder from `start`, as produced by `Dfs::new` followed by
repeated `Dfs::next`. -/
def ThreadGraph.dfsFrom (g : ThreadGraph) (start : Nat) : List Nat :=
  dfsLoop g (dfsFuel g) [start] []

/-- One output pair of `ThreadGraph::traverse` for a tracked root index:
the root's node weight paired with the pagetexts of the DFS-visited
payloads. Out-of-bounds indexing (a panic in Rust) is modelled by
defaults; all uses below stay in bounds. -/
def ThreadGraph.rootPair (g : ThreadGraph) (start : Nat) : String × List String :=
  (g.nodes.getD start "", (g.dfsFrom start).map (fun i => (g.allthreads.getD i default).pagetext))

/-- Embeds `ThreadGraph::traverse`: one pair per entry of `threads`, in
order (`par_iter().map(..).collect_into_vec` preserves order). -/
def ThreadGraph.traverse (g : ThreadGraph) : List (String × List String) :=
  g.threads.map (fun start => g.rootPair start)

/-- The full effect of a `threadgraph.traverse()` call: the method borrows
`&self` immutably, so the receiver state after the call is unchanged. -/
def ThreadGraph.traverse_call (g : ThreadGraph) : List (String × List String) × ThreadGraph :=
  (g.traverse, g)

/-! ## Operation sequences and the construction flow -/

/-- A graph mutation: `add_node` or `add_edge`. -/
inductive Op where
  | node (p : Post)
  | edge (a b : String)
deriving DecidableEq, Repr

/-- Apply one operation; `add_edge` can fail (panic modelled as `none`). -/
def applyOp (g : ThreadGraph) : Op → Option ThreadGraph
  | .node p => some (g.add_node p).2
  | .edge a b => g.add_edge a b

/-- Apply a sequence of operations from left to right. -/
def applyOps (g : ThreadGraph) (ops : List Op) : Option ThreadGraph :=
  ops.foldlM applyOp g

/-- All ids appearing in a sequence of operations. -/
def idsSeen (ops : List Op) : List String :=
  ops.flatMap (fun o => match o with
    | .node p => [p.id]
    | .edge a b => [a, b])

/-- The node-insertion phase of the construction flow (as exercised by the
repository's graph test): every post is added as a node and thread posts
register their index as a root. -/
def addAllPosts (g : ThreadGraph) (posts : List Post) : ThreadGraph :=
  posts.foldl
    (fun g p =>
      let r := g.add_node p
      if p.is_thread then r.2.add_threads r.1 else r.2)
    g

/-- The edge phase: for every collected comment, add the edge from its
parent id to its own id. -/
def addEdgesFor (g : ThreadGraph) (comments : List Post) : Option ThreadGraph :=
  comments.foldlM (fun g p => g.add_edge p.parent_post_id p.id) g

/-- Full construction from an empty graph: insert every post, then add one
edge per non-thread post, in list order (the order the repository's test
and ingestion loop use). -/
def buildGraph (posts : List Post) : Option ThreadGraph :=
  addEdgesFor (addAllPosts emptyGraph posts) (posts.filter (fun p => !p.is_thread))

/-- Edges of a graph as pairs of node weights (post ids). -/
def edgeIds (g : ThreadGraph) : List (String × String) :=
  g.edges.map (fun e => (g.nodes.getD e.1 "", g.nodes.getD e.2 ""))

/-- Tracked roots of a graph as node weights (post ids). -/
def rootIds (g : ThreadGraph) : List String :=
  g.threads.map (fun i => g.nodes.getD i "")

/-- Reachability over the id-labelled edge set. -/
def Reaches (E : List (String × String)) (a b : String) : Prop :=
  Relation.ReflTransGen (fun x y => (x, y) ∈ E) a b

/-! ## Text normalization (src/globals.rs, src/utils/processing.rs)

`MAIN_REGEX` is the pattern from `init_regex`:
the alternation of two-or-more dashes, two-or-more equals signs,
`http` followed by one or more non-space characters, an optional run of
word/dot/dash characters followed by an at-sign and one or more non-space
characters, and a hash sign followed by one or more non-space characters.
It is embedded below as one matcher per alternative, tried in pattern
order at each position (the regex crate's leftmost-first semantics), each
match replaced by a single space. `SPACE_REGEX` collapses whitespace runs.
The character classes are modelled at ASCII granularity, which the inputs
of the claims stay within. -/

/-- Whitespace as matched by the regex class for spaces. -/
def isWhite (c : Char) : Bool :=
  c == ' ' || c == '\t' || c == '\n' || c == '\r' || c == '\x0b' || c == '\x0c'

/-- Word characters (letters, digits, underscore). -/
def isWordChar (c : Char) : Bool :=
  c.isAlphanum || c == '_'

/-- The class of word characters, dots and dashes (the mention pattern's
optional local part). -/
def isWordDotDash (c : Char) : Bool :=
  isWordChar c || c == '.' || c == '-'

/-- Length of the leading run of non-space characters. -/
def nonSpaceRun (l : List Char) : Nat :=
  (l.takeWhile (fun c => !isWhite c)).length

/-- First alternative: two or more dashes (greedy). -/
def matchDashes (l : List Char) : Option Nat :=
  let run := (l.takeWhile (fun c => c == '-')).length
  if 2 ≤ run then some run else none

/-- Second alternative: two or more equals signs (greedy). -/
def matchEquals (l : List Char) : Option Nat :=
  let run := (l.takeWhile (fun c => c == '=')).length
  if 2 ≤ run then some run else none

/-- Third alternative: the literal `http` followed by one or more non-space
characters (greedy). -/
def matchHttp (l : List Char) : Option Nat :=
  if l.take 4 = ['h', 't', 't', 'p'] then
    let k := nonSpaceRun (l.drop 4)
    if 1 ≤ k then some (4 + k) else none
  else none

/-- Fourth alternative: an optional nonempty run of word/dot/dash
characters, then an at-sign, then one or more non-space characters. The
backtracking search collapses: the at-sign can only sit right after the
maximal run (its characters are never at-signs), and when the run is
nonempty the empty-prefix fallback cannot fire (the first character is a
word/dot/dash character, not an at-sign). -/
def matchMention (l : List Char) : Option Nat :=
  let pr := (l.takeWhile isWordDotDash).length
  if 1 ≤ pr ∧ l.get? pr = some '@' then
    let s := nonSpaceRun (l.drop (pr + 1))
    if 1 ≤ s then some (pr + 1 + s) else none
  else if l.get? 0 = some '@' then
    let s := nonSpaceRun (l.drop 1)
    if 1 ≤ s then some (1 + s) else none
  else none

/-- Fifth alternative: a hash sign followed by one or more non-space
characters (greedy). -/
def matchHash (l : List Char) : Option Nat :=
  if l.get? 0 = some '#' then
    let s := nonSpaceRun (l.drop 1)
    if 1 ≤ s then some (1 + s) else none
  else none

/-- The alternation, tried in pattern order at one position. -/
def matchMain (l : List Char) : Option Nat :=
  match matchDashes l with
  | some n => some n
  | none =>
    match matchEquals l with
    | some n => some n
    | none =>
      match matchHttp l with
      | some n => some n
      | none =>
        match matchMention l with
        | some n => some n
        | none => matchHash l

/-- `replace_all` with a single space for `MAIN_REGEX`: scan left to right,
replacing each leftmost match with one space. Fuel is the remaining input
length; every step consumes at least one character. -/
def replaceMainAux : Nat → List Char → List Char
  | 0, l => l
  | _ + 1, [] => []
  | fuel + 1, c :: cs =>
    match matchMain (c :: cs) with
    | some len => ' ' :: replaceMainAux fuel (List.drop len (c :: cs))
    | none => c :: replaceMainAux fuel cs

/-- Apply `MAIN_REGEX` replacement over a whole character list. -/
def replaceMain (l : List Char) : List Char :=
  replaceMainAux l.length l

/-- `replace_all` with a single space for `SPACE_REGEX` (a run of one or
more whitespace characters): each maximal whitespace run becomes one
space. The flag records whether the previous character was whitespace. -/
def collapseAux : Bool → List Char → List Char
  | _, [] => []
  | inRun, c :: cs =>
    if isWhite c then
      if inRun then collapseAux true cs else ' ' :: collapseAux true cs
    else c :: collapseAux false cs

/-- Collapse whitespace runs to single spaces. -/
def collapseSpaces (l : List Char) : List Char :=
  collapseAux false l

/-- Trim leading and trailing whitespace (Rust `str::trim`). -/
def trimBoth (l : List Char) : List Char :=
  ((l.dropWhile isWhite).reverse.dropWhile isWhite).reverse

/-- Embeds `globals::clean_content`: `MAIN_REGEX` replacement, then
whitespace collapse. -/
def clean_content (s : String) : String :=
  String.mk (collapseSpaces (replaceMain s.data))

/-- Embeds `processing::clean_text`: `clean_content` followed by `trim`. -/
def clean_text (s : String) : String :=
  String.mk (trimBoth (clean_content s).data)

/-- Word count as computed by `split_whitespace().count()`: the number of
maximal non-whitespace runs. -/
def wordCountAux : Bool → List Char → Nat
  | _, [] => 0
  | inWord, c :: cs =>
    if isWhite c then wordCountAux false cs
    else (if inWord then 0 else 1) + wordCountAux true cs

/-- Whitespace-separated word count of a string. -/
def wordCount (s : String) : Nat :=
  wordCountAux false s.data

/-! ## Output records and processing (src/utils/writer.rs, src/utils/processing.rs) -/

/-- Embeds `struct ThreadPost` from src/utils/writer.rs. -/
structure ThreadPost where
  length : Nat
  raw_content : String
  thread_id : String
  source : String
deriving DecidableEq, Repr

/-- Embeds `processing::process`. The external tokenizer (`globals::tokenize`
followed by `.len()`) is the parameter `tok`. The loop pushes a newline
before every cleaned text except the first; the length is the token count
when the tokenizer flag is set and the whitespace word count otherwise. -/
def process (thread_id : String) (content : List String) (forum_name : String)
    (use_sentencepiece : Bool) (tok : String → Nat) : ThreadPost :=
  let cleaned_content :=
    content.enum.foldl
      (fun acc it => (if 0 < it.1 then acc ++ "\n" else acc) ++ clean_text it.2) ""
  let length := if use_sentencepiece then tok cleaned_content else wordCount cleaned_content
  { length := length
    raw_content := cleaned_content
    thread_id := thread_id
    source := forum_name }

/-- The specification's description of the joined content: the normalized
texts joined, in order, with single newlines. Stated from the spec's words
to be compared against `process`. -/
def specNewlineJoin : List String → String
  | [] => ""
  | t :: ts => ts.foldl (fun acc x => acc ++ "\n" ++ x) t

/-! ## Chunked JSONL writing (src/utils/writer.rs) -/

/-- The hardcoded shard byte budget `MAX_BYTES_PER_FILE` (100 MiB). -/
def MAX_BYTES_PER_FILE : Nat := 100 * 1024 ^ 2

/-- Rust `usize::div_ceil` (the divisors used below are positive). -/
def div_ceil (a b : Nat) : Nat := (a + b - 1) / b

/-- Embeds `get_chunk_size`: number of files from the byte total, at least
one split, records divided evenly by count. -/
def get_chunk_size (bytes : Nat) (data : List ThreadPost) : Nat :=
  let num_files := div_ceil bytes MAX_BYTES_PER_FILE
  let num_splits := max num_files 1
  div_ceil data.length num_splits

/-- Contiguous chunks of `k` records; fuel is the list length (each step
consumes at least one element when `1 ≤ k`). -/
def chunksOfAux {α : Type} (k : Nat) : Nat → List α → List (List α)
  | _, [] => []
  | 0, l => [l]
  | fuel + 1, a :: l => List.take k (a :: l) :: chunksOfAux k fuel (List.drop k (a :: l))

/-- Split a list into chunks of `k` elements (the last may be shorter),
as `par_chunks(k)` does. -/
def chunksOf {α : Type} (k : Nat) (l : List α) : List (List α) :=
  chunksOfAux k l.length l

/-- Embeds the sharding decision of `_write_jsonl`: one file when the data
fits in a single chunk, otherwise one file per `chunk_size`-sized block of
records. The result lists the records of each produced shard file. -/
def write_jsonl_shards (data : List ThreadPost) (bytes : Nat) : List (List ThreadPost) :=
  let chunk_size := get_chunk_size bytes data
  if data.length ≤ chunk_size then [data] else chunksOf chunk_size data

/-- Total content bytes of a record list, as accumulated by
`create_thread_posts` (`raw_content.len()` summed). ASCII contents make
character count equal byte count. -/
def sumBytes (data : List ThreadPost) : Nat :=
  (data.map (fun p => p.raw_content.length)).sum

/-- The state `add_edge` reaches after synthesizing a placeholder for an
unmapped parent id `a`: one fresh node carrying `a`, the placeholder
payload, the new map entry and the root registration (no edge yet). -/
def placeholderExtend (g : ThreadGraph) (a : String) : ThreadGraph :=
  { nodes := g.nodes ++ [a]
    edges := g.edges
    node_map := (a, g.nodes.length) :: g.node_map
    threads := g.threads ++ [g.nodes.length]
    allthreads := g.allthreads ++ [Post.placeholder a] }

/-! ## The ThreadGraph representation invariant -/

/-- The arena invariant of `ThreadGraph` maintained by `add_node` and
`add_edge`: the payload array parallels the node array, `node_map` sends
each mapped id to the index carrying that id as its weight, every payload
is mapped back to its own index, and edge endpoints and tracked roots are
valid indices. -/
structure WF (g : ThreadGraph) : Prop where
  len_eq : g.allthreads.length = g.nodes.length
  lookup_get : ∀ id i, mapFind g.node_map id = some i → g.nodes.get? i = some id
  payload_get : ∀ i p, g.allthreads.get? i = some p → g.nodes.get? i = some p.id
  payload_lookup : ∀ i p, g.allthreads.get? i = some p → mapFind g.node_map p.id = some i
  edges_lt : ∀ e, e ∈ g.edges → e.1 < g.nodes.length ∧ e.2 < g.nodes.length
  roots_lt : ∀ r, r ∈ g.threads → r < g.nodes.length

/-! ## Concrete data for witnesses and counterexamples -/

/-- A thread post with id "1". -/
def pRoot : Post := { id := "1", is_thread := true, pagetext := "A", parent_post_id := "1", root_post_id := "1" }

/-- A comment with id "2" replying to "1". -/
def pChild : Post := { id := "2", is_thread := false, pagetext := "B", parent_post_id := "1", root_post_id := "1" }

/-- A comment with id "3" whose parent "99" never appears standalone. -/
def pOrphan : Post := { id := "3", is_thread := false, pagetext := "C", parent_post_id := "99", root_post_id := "99" }

/-- A first post with id "1". -/
def postDup1 : Post := { id := "1", is_thread := true, pagetext := "first", parent_post_id := "1", root_post_id := "1" }

/-- A later post re-using id "1" with a different payload. -/
def postDup2 : Post := { id := "1", is_thread := true, pagetext := "second", parent_post_id := "1", root_post_id := "1" }

/-- A post list for the permutation claim. -/
def demoPosts1 : List Post := [pRoot, pChild, pOrphan]

/-- A permutation of `demoPosts1`. -/
def demoPosts2 : List Post := [pOrphan, pRoot, pChild]

/-- The graph built from `demoPosts1`. -/
def demoG1 : ThreadGraph := (buildGraph demoPosts1).getD emptyGraph

/-- The graph built from `demoPosts2`. -/
def demoG2 : ThreadGraph := (buildGraph demoPosts2).getD emptyGraph

/-- A concrete operation sequence: two inserts, a normal edge and an edge
that synthesizes a placeholder parent. -/
def demoOps : List Op := [Op.node pRoot, Op.node pChild, Op.edge "1" "2", Op.edge "99" "2"]

/-- The graph resulting from `demoOps`. -/
def demoG9 : ThreadGraph := (applyOps emptyGraph demoOps).getD emptyGraph

/-- A graph holding only the comment "2"; parent "99" is absent. -/
def demoG3 : ThreadGraph := (emptyGraph.add_node pChild).2

/-- A graph whose single node is registered as a root twice. -/
def demoG10 : ThreadGraph :=
  ((emptyGraph.add_node pRoot).2.add_threads (emptyGraph.add_node pRoot).1).add_threads
    (emptyGraph.add_node pRoot).1

/-- The graph holding the duplicate-id insertion of `postDup1` then `postDup2`. -/
def demoG1dup : ThreadGraph := (((emptyGraph.add_node postDup1).2).add_node postDup2).2

/-- A parser model for the witness of the parsing claim: recognizes two
well-formed lines and rejects everything else. -/
def parseDemo : String → Option JsonStruct := fun s =>
  if s = "goodY" then some { id := "1", is_thread := "Y", pagetext := "t", parent_post_id := "1", root_post_id := "1" }
  else if s = "goodN" then some { id := "2", is_thread := "N", pagetext := "u", parent_post_id := "1", root_post_id := "1" }
  else none

/-- An all-`a` string of the given length, built without literal storage. -/
def bigString (n : Nat) : String := String.mk (List.replicate n 'a')

/-- A record of 73400320 content bytes (0.7 of the shard budget). -/
def bigPostA : ThreadPost := { length := 0, raw_content := bigString 73400320, thread_id := "", source := "" }

/-- A record of exactly `MAX_BYTES_PER_FILE` content bytes. -/
def bigPostB : ThreadPost := { length := 0, raw_content := bigString 104857600, thread_id := "", source := "" }

/-- A record of one content byte. -/
def onePost : ThreadPost := { length := 0, raw_content := "a", thread_id := "", source := "" }

/-- Five records of 0.7 budget each: 3.5 budgets in total. -/
def dataA : List ThreadPost := List.replicate 5 bigPostA

/-- One full-budget record and two one-byte records. -/
def dataB : List ThreadPost := [bigPostB, onePost, onePost]

/-! ## Helper lemmas: lists and lookups -/

theorem get?_append_lt {α : Type} {l : List α} (t : List α) {i : Nat} (h : i < l.length) :
    (l ++ t).get? i = l.get? i := by
  simp [List.get?_eq_getElem?, List.getElem?_append_left h]

theorem get?_concat_self {α : Type} (l : List α) (a : α) :
    (l ++ [a]).get? l.length = some a := by
  simp [List.get?_eq_getElem?]

theorem get?_append_cases {α : Type} {l : List α} {a b : α} {i : Nat}
    (h : (l ++ [a]).get? i = some b) :
    (i < l.length ∧ l.get? i = some b) ∨ (i = l.length ∧ b = a) := by
  rcases Nat.lt_trichotomy i l.length with hlt | heq | hgt
  · exact Or.inl ⟨hlt, by rwa [get?_append_lt [a] hlt] at h⟩
  · subst heq
    rw [get?_concat_self] at h
    exact Or.inr ⟨rfl, (Option.some.inj h).symm⟩
  · exfalso
    have hlen : (l ++ [a]).length ≤ i := by
      simp only [List.length_append, List.length_singleton]
      omega
    rw [List.get?_eq_none.2 hlen] at h
    cases h

theorem lt_of_get?_eq_some {α : Type} {l : List α} {a : α} {i : Nat}
    (h : l.get? i = some a) : i < l.length := by
  by_contra hge
  rw [List.get?_eq_none.2 (Nat.le_of_not_lt hge)] at h
  cases h

theorem getD_append_of_lt {α : Type} {l t : List α} {i : Nat} (d : α) (h : i < l.length) :
    (l ++ t).getD i d = l.getD i d := by
  simp [List.getD_eq_getElem?_getD, List.getElem?_append_left h]

theorem getD_of_get?_eq_some {α : Type} {l : List α} {a : α} {i : Nat} (d : α)
    (h : l.get? i = some a) : l.getD i d = a := by
  rw [List.get?_eq_getElem?] at h
  simp [List.getD_eq_getElem?_getD, h]

theorem mapFind_cons (k : String) (v : Nat) (m : List (String × Nat)) (id : String) :
    mapFind ((k, v) :: m) id = if k = id then some v else mapFind m id := rfl

/-! ## Helper lemmas: add_node, add_threads, add_edge -/

theorem add_node_of_found {g : ThreadGraph} {p : Post} {idx : Nat}
    (h : mapFind g.node_map p.id = some idx) : g.add_node p = (idx, g) := by
  simp [ThreadGraph.add_node, h]

theorem add_node_of_new {g : ThreadGraph} {p : Post} (h : mapFind g.node_map p.id = none) :
    g.add_node p = (g.nodes.length,
      { g with
          nodes := g.nodes ++ [p.id]
          allthreads := g.allthreads ++ [p]
          node_map := (p.id, g.nodes.length) :: g.node_map }) := by
  simp [ThreadGraph.add_node, h]

theorem add_node_edges (g : ThreadGraph) (p : Post) : ((g.add_node p).2).edges = g.edges := by
  cases h : mapFind g.node_map p.id with
  | some idx => rw [add_node_of_found h]
  | none => rw [add_node_of_new h]

theorem add_node_threads (g : ThreadGraph) (p : Post) : ((g.add_node p).2).threads = g.threads := by
  cases h : mapFind g.node_map p.id with
  | some idx => rw [add_node_of_found h]
  | none => rw [add_node_of_new h]

theorem add_node_lookup_self (g : ThreadGraph) (p : Post) :
    mapFind ((g.add_node p).2).node_map p.id = some (g.add_node p).1 := by
  cases h : mapFind g.node_map p.id with
  | some idx => rw [add_node_of_found h]; exact h
  | none => rw [add_node_of_new h]; simp [mapFind]

theorem add_node_lookup_mono {g : ThreadGraph} {id : String} {i : Nat} (p : Post)
    (h : mapFind g.node_map id = some i) :
    mapFind ((g.add_node p).2).node_map id = some i := by
  cases hp : mapFind g.node_map p.id with
  | some idx => rw [add_node_of_found hp]; exact h
  | none =>
    rw [add_node_of_new hp]
    have : p.id ≠ id := fun he => by rw [he, h] at hp; cases hp
    simp [mapFind, this, h]

theorem wf_empty : WF emptyGraph := by
  constructor <;> intros <;> simp_all [emptyGraph, mapFind]

theorem wf_add_node {g : ThreadGraph} (w : WF g) (p : Post) : WF (g.add_node p).2 := by
  cases h : mapFind g.node_map p.id with
  | some idx => rw [add_node_of_found h]; exact w
  | none =>
    rw [add_node_of_new h]
    constructor
    · simp [w.len_eq]
    · intro id i hfind
      rw [mapFind_cons] at hfind
      by_cases hid : p.id = id
      · simp only [hid, if_pos rfl] at hfind
        rw [← Option.some.inj hfind, ← hid]
        exact get?_concat_self g.nodes p.id
      · rw [if_neg hid] at hfind
        have := w.lookup_get id i hfind
        rw [get?_append_lt _ (lt_of_get?_eq_some this)]
        exact this
    · intro i q hq
      rcases get?_append_cases hq with ⟨hlt, hold⟩ | ⟨hi, hqe⟩
      · have := w.payload_get i q hold
        rw [get?_append_lt _ (lt_of_get?_eq_some this)]
        exact this
      · rw [hqe, hi, w.len_eq]
        exact get?_concat_self g.nodes p.id
    · intro i q hq
      rcases get?_append_cases hq with ⟨hlt, hold⟩ | ⟨hi, hqe⟩
      · have hold' := w.payload_lookup i q hold
        rw [mapFind_cons]
        have : p.id ≠ q.id := fun he => by rw [he, hold'] at h; cases h
        rw [if_neg this]
        exact hold'
      · subst hqe
        rw [mapFind_cons, if_pos rfl, hi, w.len_eq]
    · intro e he
      simp only [List.length_append, List.length_singleton]
      have := w.edges_lt e he
      omega
    · intro r hr
      simp only [List.length_append, List.length_singleton]
      have := w.roots_lt r hr
      omega

theorem add_node_fst_lt {g : ThreadGraph} (w : WF g) (p : Post) :
    (g.add_node p).1 < ((g.add_node p).2).nodes.length := by
  have := (wf_add_node w p).lookup_get p.id (g.add_node p).1 (add_node_lookup_self g p)
  exact lt_of_get?_eq_some this

theorem wf_add_threads {g : ThreadGraph} (w : WF g) {i : Nat} (h : i < g.nodes.length) :
    WF (g.add_threads i) := by
  constructor
  · exact w.len_eq
  · exact w.lookup_get
  · exact w.payload_get
  · exact w.payload_lookup
  · exact w.edges_lt
  · intro r hr
    simp only [ThreadGraph.add_threads, List.mem_append, List.mem_singleton] at hr
    rcases hr with hr | hr
    · exact w.roots_lt r hr
    · rw [hr]; exact h

theorem wf_edges_append {g : ThreadGraph} (w : WF g) {fi ti : Nat}
    (hf : fi < g.nodes.length) (ht : ti < g.nodes.length) :
    WF { g with edges := g.edges ++ [(fi, ti)] } := by
  constructor
  · exact w.len_eq
  · exact w.lookup_get
  · exact w.payload_get
  · exact w.payload_lookup
  · intro e he
    simp only [List.mem_append, List.mem_singleton] at he
    rcases he with he | he
    · exact w.edges_lt e he
    · rw [he]; exact ⟨hf, ht⟩
  · exact w.roots_lt

theorem placeholderExtend_eq {g : ThreadGraph} {a : String}
    (ha : mapFind g.node_map a = none) :
    ((g.add_node (Post.placeholder a)).2).add_threads (g.add_node (Post.placeholder a)).1 =
      placeholderExtend g a := by
  rw [add_node_of_new (show mapFind g.node_map (Post.placeholder a).id = none from ha)]
  rfl

theorem wf_placeholderExtend {g : ThreadGraph} (w : WF g) {a : String}
    (ha : mapFind g.node_map a = none) : WF (placeholderExtend g a) := by
  rw [← placeholderExtend_eq ha]
  exact wf_add_threads (wf_add_node w _) (add_node_fst_lt w _)

theorem mapFind_placeholderExtend (g : ThreadGraph) (a id : String) :
    mapFind (placeholderExtend g a).node_map id =
      if a = id then some g.nodes.length else mapFind g.node_map id := rfl

theorem add_edge_present {g : ThreadGraph} {a b : String} {fi ti : Nat}
    (ha : mapFind g.node_map a = some fi) (hb : mapFind g.node_map b = some ti) :
    g.add_edge a b = some { g with edges := g.edges ++ [(fi, ti)] } := by
  simp [ThreadGraph.add_edge, ha, hb]

theorem add_edge_absent {g : ThreadGraph} {a b : String} {ti : Nat}
    (ha : mapFind g.node_map a = none) (hb : mapFind g.node_map b = some ti) :
    g.add_edge a b =
      some { placeholderExtend g a with edges := g.edges ++ [(g.nodes.length, ti)] } := by
  have hba : ¬ a = b := fun he => by rw [← he, ha] at hb; cases hb
  simp [ThreadGraph.add_edge, ha, placeholderExtend_eq ha, placeholderExtend, mapFind,
    hba, hb]

theorem add_edge_self_absent {g : ThreadGraph} {a : String}
    (ha : mapFind g.node_map a = none) :
    g.add_edge a a =
      some { placeholderExtend g a with
               edges := g.edges ++ [(g.nodes.length, g.nodes.length)] } := by
  simp [ThreadGraph.add_edge, ha, placeholderExtend_eq ha, placeholderExtend, mapFind]

theorem add_edge_some_cases {g g' : ThreadGraph} {a b : String}
    (h : g.add_edge a b = some g') :
    (∃ fi ti, mapFind g.node_map a = some fi ∧ mapFind g.node_map b = some ti ∧
        g' = { g with edges := g.edges ++ [(fi, ti)] }) ∨
    (∃ ti, mapFind g.node_map a = none ∧ mapFind g.node_map b = some ti ∧
        g' = { placeholderExtend g a with edges := g.edges ++ [(g.nodes.length, ti)] }) ∨
    (b = a ∧ mapFind g.node_map a = none ∧
        g' = { placeholderExtend g a with
                 edges := g.edges ++ [(g.nodes.length, g.nodes.length)] }) := by
  cases ha : mapFind g.node_map a with
  | some fi =>
    cases hb : mapFind g.node_map b with
    | some ti =>
      rw [add_edge_present ha hb] at h
      exact Or.inl ⟨fi, ti, rfl, rfl, (Option.some.inj h).symm⟩
    | none =>
      exfalso
      simp [ThreadGraph.add_edge, ha, hb] at h
  | none =>
    by_cases hba : b = a
    · subst hba
      rw [add_edge_self_absent ha] at h
      exact Or.inr (Or.inr ⟨rfl, rfl, (Option.some.inj h).symm⟩)
    · cases hb : mapFind g.node_map b with
      | some ti =>
        rw [add_edge_absent ha hb] at h
        exact Or.inr (Or.inl ⟨ti, rfl, rfl, (Option.some.inj h).symm⟩)
      | none =>
        exfalso
        have hab : ¬ a = b := fun he => hba he.symm
        simp [ThreadGraph.add_edge, ha, placeholderExtend_eq ha, mapFind_placeholderExtend,
          hab, hb] at h

theorem wf_add_edge {g g' : ThreadGraph} (w : WF g) {a b : String}
    (h : g.add_edge a b = some g') : WF g' := by
  rcases add_edge_some_cases h with ⟨fi, ti, ha, hb, rfl⟩ | ⟨ti, ha, hb, rfl⟩ | ⟨hba, ha, rfl⟩
  · exact wf_edges_append w (lt_of_get?_eq_some (w.lookup_get a fi ha))
      (lt_of_get?_eq_some (w.lookup_get b ti hb))
  · have wp := wf_placeholderExtend w ha
    have hf : g.nodes.length < (placeholderExtend g a).nodes.length := by
      simp [placeholderExtend]
    have ht : ti < (placeholderExtend g a).nodes.length := by
      have := lt_of_get?_eq_some (w.lookup_get b ti hb)
      simp only [placeholderExtend, List.length_append, List.length_singleton]
      omega
    have := wf_edges_append wp hf ht
    simpa [placeholderExtend] using this
  · have wp := wf_placeholderExtend w ha
    have hf : g.nodes.length < (placeholderExtend g a).nodes.length := by
      simp [placeholderExtend]
    have := wf_edges_append wp hf hf
    simpa [placeholderExtend] using this

/-- Lookups only grow across a successful `add_edge`. -/
theorem add_edge_lookup_mono {g g' : ThreadGraph} {a b id : String} {i : Nat}
    (h : g.add_edge a b = some g') (hid : mapFind g.node_map id = some i) :
    mapFind g'.node_map id = some i := by
  rcases add_edge_some_cases h with ⟨fi, ti, ha, hb, rfl⟩ | ⟨ti, ha, hb, rfl⟩ | ⟨hba, ha, rfl⟩
  · exact hid
  · have : ¬ a = id := fun he => by rw [he, hid] at ha; cases ha
    simp [mapFind_placeholderExtend, this, hid]
  · have : ¬ a = id := fun he => by rw [he, hid] at ha; cases ha
    simp [mapFind_placeholderExtend, this, hid]

/-! ## Helper lemmas: id-labelled edges and roots -/

theorem edgeIds_placeholderExtend {g : ThreadGraph} (w : WF g) (a : String) :
    edgeIds (placeholderExtend g a) = edgeIds g := by
  unfold edgeIds placeholderExtend
  refine List.map_congr_left ?_
  intro e he
  have hlt := w.edges_lt e he
  rw [getD_append_of_lt "" hlt.1, getD_append_of_lt "" hlt.2]

theorem rootIds_placeholderExtend {g : ThreadGraph} (w : WF g) (a : String) :
    rootIds (placeholderExtend g a) = rootIds g ++ [a] := by
  unfold rootIds placeholderExtend
  simp only [List.map_append, List.map_cons, List.map_nil]
  congr 1
  · refine List.map_congr_left ?_
    intro r hr
    rw [getD_append_of_lt "" (w.roots_lt r hr)]
  · rw [getD_of_get?_eq_some "" (get?_concat_self g.nodes a)]

theorem edgeIds_edges_append {g : ThreadGraph} {fi ti : Nat} {a b : String}
    (hf : g.nodes.get? fi = some a) (ht : g.nodes.get? ti = some b) :
    edgeIds { g with edges := g.edges ++ [(fi, ti)] } = edgeIds g ++ [(a, b)] := by
  unfold edgeIds
  simp only [List.map_append, List.map_cons, List.map_nil]
  rw [getD_of_get?_eq_some "" hf, getD_of_get?_eq_some "" ht]

theorem rootIds_edges_append (g : ThreadGraph) (e : Nat × Nat) :
    rootIds { g with edges := g.edges ++ [e] } = rootIds g := rfl

/-! ## Helper lemmas: the node-insertion phase -/

theorem addAllPosts_nil (g : ThreadGraph) : addAllPosts g [] = g := rfl

theorem addAllPosts_cons (g : ThreadGraph) (p : Post) (posts : List Post) :
    addAllPosts g (p :: posts) =
      addAllPosts
        (if p.is_thread then ((g.add_node p).2).add_threads (g.add_node p).1
         else (g.add_node p).2)
        posts := rfl

theorem wf_step {g : ThreadGraph} (w : WF g) (p : Post) :
    WF (if p.is_thread then ((g.add_node p).2).add_threads (g.add_node p).1
        else (g.add_node p).2) := by
  by_cases hth : p.is_thread
  · rw [if_pos hth]
    exact wf_add_threads (wf_add_node w p) (add_node_fst_lt w p)
  · rw [if_neg hth]
    exact wf_add_node w p

theorem step_node_map (g : ThreadGraph) (p : Post) :
    (if p.is_thread then ((g.add_node p).2).add_threads (g.add_node p).1
     else (g.add_node p).2).node_map = ((g.add_node p).2).node_map := by
  by_cases hth : p.is_thread
  · rw [if_pos hth]; rfl
  · rw [if_neg hth]

theorem step_edges (g : ThreadGraph) (p : Post) :
    (if p.is_thread then ((g.add_node p).2).add_threads (g.add_node p).1
     else (g.add_node p).2).edges = g.edges := by
  by_cases hth : p.is_thread
  · rw [if_pos hth]
    show ((g.add_node p).2).edges = g.edges
    exact add_node_edges g p
  · rw [if_neg hth]
    exact add_node_edges g p

theorem rootIds_add_node {g : ThreadGraph} (w : WF g) (p : Post) :
    rootIds ((g.add_node p).2) = rootIds g := by
  cases h : mapFind g.node_map p.id with
  | some idx => rw [add_node_of_found h]
  | none =>
    rw [add_node_of_new h]
    unfold rootIds
    refine List.map_congr_left ?_
    intro r hr
    exact getD_append_of_lt "" (w.roots_lt r hr)

theorem rootIds_step {g : ThreadGraph} (w : WF g) (p : Post) :
    rootIds (if p.is_thread then ((g.add_node p).2).add_threads (g.add_node p).1
             else (g.add_node p).2) =
      rootIds g ++ (if p.is_thread then [p.id] else []) := by
  by_cases hth : p.is_thread
  · rw [if_pos hth, if_pos hth]
    have hself := add_node_lookup_self g p
    have hget := (wf_add_node w p).lookup_get p.id (g.add_node p).1 hself
    unfold rootIds ThreadGraph.add_threads
    simp only [List.map_append, List.map_cons, List.map_nil]
    rw [getD_of_get?_eq_some "" hget]
    congr 1
    exact rootIds_add_node w p
  · rw [if_neg hth, if_neg hth, List.append_nil]
    exact rootIds_add_node w p

theorem addAllPosts_spec : ∀ (posts : List Post) (g : ThreadGraph), WF g →
    WF (addAllPosts g posts) ∧
    (addAllPosts g posts).edges = g.edges ∧
    (∀ id i, mapFind g.node_map id = some i →
      mapFind (addAllPosts g posts).node_map id = some i) ∧
    (∀ id, (mapFind (addAllPosts g posts).node_map id).isSome ↔
      (mapFind g.node_map id).isSome ∨ id ∈ posts.map (fun p => p.id)) ∧
    rootIds (addAllPosts g posts) =
      rootIds g ++ (posts.filter (fun p => p.is_thread)).map (fun p => p.id) := by
  intro posts
  induction posts with
  | nil =>
    intro g w
    refine ⟨w, rfl, fun id i h => h, fun id => ?_, by simp [addAllPosts_nil]⟩
    simp [addAllPosts_nil]
  | cons p rest ih =>
    intro g w
    rw [addAllPosts_cons]
    set g2 := (if p.is_thread then ((g.add_node p).2).add_threads (g.add_node p).1
      else (g.add_node p).2) with hg2
    obtain ⟨ihw, ihe, ihmono, ihkeys, ihroots⟩ := ih g2 (wf_step w p)
    refine ⟨ihw, ?_, ?_, ?_, ?_⟩
    · rw [ihe, hg2, step_edges]
    · intro id i h
      refine ihmono id i ?_
      rw [hg2, step_node_map]
      exact add_node_lookup_mono p h
    · intro id
      rw [ihkeys id]
      constructor
      · rintro (hs | hmem)
        · rw [hg2, step_node_map] at hs
          cases hfound : mapFind g.node_map p.id with
          | some idx =>
            rw [add_node_of_found hfound] at hs
            exact Or.inl hs
          | none =>
            rw [add_node_of_new hfound, mapFind_cons] at hs
            by_cases hid : p.id = id
            · exact Or.inr (by simp [← hid])
            · rw [if_neg hid] at hs
              exact Or.inl hs
        · exact Or.inr (by simp [hmem])
      · rintro (hs | hmem)
        · left
          rw [hg2, step_node_map]
          obtain ⟨i, hi⟩ := Option.isSome_iff_exists.1 hs
          rw [add_node_lookup_mono p hi]
          rfl
        · simp only [List.map_cons, List.mem_cons] at hmem
          rcases hmem with hmem | hmem
          · left
            rw [hg2, step_node_map, hmem]
            rw [add_node_lookup_self g p]
            rfl
          · exact Or.inr hmem
    · rw [ihroots, hg2, rootIds_step w p, List.filter_cons]
      by_cases hth : p.is_thread
      · simp [hth]
      · simp [hth]

/-! ## Helper lemmas: the edge phase -/

theorem addEdgesFor_nil (g : ThreadGraph) : addEdgesFor g [] = some g := rfl

theorem addEdgesFor_cons (g : ThreadGraph) (p : Post) (rest : List Post) :
    addEdgesFor g (p :: rest) =
      (g.add_edge p.parent_post_id p.id).bind (fun g2 => addEdgesFor g2 rest) := by
  cases h : g.add_edge p.parent_post_id p.id <;>
    simp [addEdgesFor, List.foldlM_cons, h]

theorem addEdgesFor_spec : ∀ (comments : List Post) (g : ThreadGraph), WF g →
    (∀ p, p ∈ comments → (mapFind g.node_map p.id).isSome) →
    ∃ g', addEdgesFor g comments = some g' ∧ WF g' ∧
      edgeIds g' = edgeIds g ++ comments.map (fun p => (p.parent_post_id, p.id)) ∧
      (∀ r, r ∈ rootIds g' ↔ r ∈ rootIds g ∨
        (r ∈ comments.map (fun p => p.parent_post_id) ∧ mapFind g.node_map r = none)) := by
  intro comments
  induction comments with
  | nil =>
    intro g w _
    exact ⟨g, rfl, w, by simp, fun r => by simp⟩
  | cons p rest ih =>
    intro g w hids
    obtain ⟨ti, hti⟩ := Option.isSome_iff_exists.1 (hids p (List.mem_cons_self p rest))
    cases ha : mapFind g.node_map p.parent_post_id with
    | some fi =>
      have hedge := add_edge_present ha hti
      have w2 : WF { g with edges := g.edges ++ [(fi, ti)] } := wf_add_edge w hedge
      have hrest : ∀ q, q ∈ rest →
          (mapFind ({ g with edges := g.edges ++ [(fi, ti)] } : ThreadGraph).node_map q.id).isSome :=
        fun q hq => hids q (List.mem_cons_of_mem p hq)
      obtain ⟨g', hfold, w', hE, hR⟩ := ih _ w2 hrest
      refine ⟨g', ?_, w', ?_, ?_⟩
      · rw [addEdgesFor_cons, hedge, Option.some_bind]
        exact hfold
      · rw [hE, edgeIds_edges_append (w.lookup_get _ fi ha) (w.lookup_get _ ti hti)]
        simp [List.append_assoc]
      · intro r
        rw [hR r]
        constructor
        · rintro (h | ⟨hmem, hnone⟩)
          · exact Or.inl h
          · exact Or.inr ⟨by simp only [List.map_cons, List.mem_cons]; exact Or.inr hmem, hnone⟩
        · rintro (h | ⟨hmem, hnone⟩)
          · exact Or.inl h
          · simp only [List.map_cons, List.mem_cons] at hmem
            rcases hmem with he | hmem
            · exfalso
              rw [← he, hnone] at ha
              cases ha
            · exact Or.inr ⟨hmem, hnone⟩
    | none =>
      have hedge := add_edge_absent ha hti
      have w2 : WF { placeholderExtend g p.parent_post_id with
          edges := g.edges ++ [(g.nodes.length, ti)] } := wf_add_edge w hedge
      have hrest : ∀ q, q ∈ rest →
          (mapFind ({ placeholderExtend g p.parent_post_id with
            edges := g.edges ++ [(g.nodes.length, ti)] } : ThreadGraph).node_map q.id).isSome := by
        intro q hq
        obtain ⟨i, hi⟩ := Option.isSome_iff_exists.1 (hids q (List.mem_cons_of_mem p hq))
        rw [show ({ placeholderExtend g p.parent_post_id with
            edges := g.edges ++ [(g.nodes.length, ti)] } : ThreadGraph).node_map =
            (p.parent_post_id, g.nodes.length) :: g.node_map from rfl, mapFind_cons]
        by_cases hpe : p.parent_post_id = q.id
        · rw [if_pos hpe]
          rfl
        · rw [if_neg hpe, hi]
          rfl
      obtain ⟨g', hfold, w', hE, hR⟩ := ih _ w2 hrest
      refine ⟨g', ?_, w', ?_, ?_⟩
      · rw [addEdgesFor_cons, hedge, Option.some_bind]
        exact hfold
      · rw [hE]
        have hfrom : (placeholderExtend g p.parent_post_id).nodes.get? g.nodes.length =
            some p.parent_post_id := get?_concat_self g.nodes p.parent_post_id
        have hto : (placeholderExtend g p.parent_post_id).nodes.get? ti = some p.id := by
          rw [show (placeholderExtend g p.parent_post_id).nodes =
            g.nodes ++ [p.parent_post_id] from rfl,
            get?_append_lt _ (lt_of_get?_eq_some (w.lookup_get _ ti hti))]
          exact w.lookup_get _ ti hti
        rw [show ({ placeholderExtend g p.parent_post_id with
              edges := g.edges ++ [(g.nodes.length, ti)] } : ThreadGraph) =
            { placeholderExtend g p.parent_post_id with
              edges := (placeholderExtend g p.parent_post_id).edges ++
                [(g.nodes.length, ti)] } from rfl,
          edgeIds_edges_append hfrom hto, edgeIds_placeholderExtend w]
        simp [List.append_assoc]
      · intro r
        rw [hR r]
        have hroots2 : rootIds ({ placeholderExtend g p.parent_post_id with
            edges := g.edges ++ [(g.nodes.length, ti)] } : ThreadGraph) =
            rootIds g ++ [p.parent_post_id] :=
          rootIds_placeholderExtend w p.parent_post_id
        have hmap2 : ∀ s, mapFind ({ placeholderExtend g p.parent_post_id with
            edges := g.edges ++ [(g.nodes.length, ti)] } : ThreadGraph).node_map s =
            if p.parent_post_id = s then some g.nodes.length else mapFind g.node_map s :=
          fun s => rfl
        constructor
        · rintro (h | ⟨hmem, hnone⟩)
          · rw [hroots2] at h
            rcases List.mem_append.1 h with h | h
            · exact Or.inl h
            · rw [List.mem_singleton] at h
              refine Or.inr ⟨?_, by rw [h]; exact ha⟩
              simp only [List.map_cons, List.mem_cons]
              exact Or.inl h
          · rw [hmap2 r] at hnone
            by_cases hpr : p.parent_post_id = r
            · rw [if_pos hpr] at hnone
              cases hnone
            · rw [if_neg hpr] at hnone
              refine Or.inr ⟨?_, hnone⟩
              simp only [List.map_cons, List.mem_cons]
              exact Or.inr hmem
        · rintro (h | ⟨hmem, hnone⟩)
          · refine Or.inl ?_
            rw [hroots2]
            exact List.mem_append.2 (Or.inl h)
          · simp only [List.map_cons, List.mem_cons] at hmem
            by_cases hpr : r = p.parent_post_id
            · refine Or.inl ?_
              rw [hroots2]
              exact List.mem_append.2 (Or.inr (by rw [List.mem_singleton, hpr]))
            · rcases hmem with he | hmem
              · exact absurd he hpr
              · refine Or.inr ⟨hmem, ?_⟩
                rw [hmap2 r, if_neg (fun he => hpr he.symm)]
                exact hnone

/-! ## Helper lemmas: the full construction and reachability -/

theorem buildGraph_spec {posts : List Post} {g : ThreadGraph} (h : buildGraph posts = some g) :
    WF g ∧
    edgeIds g = (posts.filter (fun p => !p.is_thread)).map (fun p => (p.parent_post_id, p.id)) ∧
    (∀ r, r ∈ rootIds g ↔
      r ∈ (posts.filter (fun p => p.is_thread)).map (fun p => p.id) ∨
        (r ∈ (posts.filter (fun p => !p.is_thread)).map (fun p => p.parent_post_id) ∧
          ¬ r ∈ posts.map (fun p => p.id))) := by
  obtain ⟨wmid, hedges, _, hkeys, hroots⟩ := addAllPosts_spec posts emptyGraph wf_empty
  have hcomm : ∀ p, p ∈ posts.filter (fun p => !p.is_thread) →
      (mapFind (addAllPosts emptyGraph posts).node_map p.id).isSome := by
    intro p hp
    rw [hkeys p.id]
    exact Or.inr (List.mem_map_of_mem _ (List.mem_of_mem_filter hp))
  obtain ⟨g', hfold, w', hE, hR⟩ := addEdgesFor_spec _ _ wmid hcomm
  have hg : g' = g := by
    have heq : buildGraph posts = some g' := hfold
    rw [h] at heq
    exact (Option.some.inj heq).symm
  subst hg
  refine ⟨w', ?_, ?_⟩
  · rw [hE]
    have hnilE : edgeIds (addAllPosts emptyGraph posts) = [] := by
      unfold edgeIds
      rw [hedges]
      rfl
    rw [hnilE, List.nil_append]
  · intro r
    rw [hR r]
    have hr1 : rootIds (addAllPosts emptyGraph posts) =
        (posts.filter (fun p => p.is_thread)).map (fun p => p.id) := by
      rw [hroots]
      rfl
    have hkr := hkeys r
    rw [show (mapFind emptyGraph.node_map r).isSome = false from rfl] at hkr
    simp only [Bool.false_eq_true, false_or] at hkr
    have hr2 : mapFind (addAllPosts emptyGraph posts).node_map r = none ↔
        ¬ r ∈ posts.map (fun p => p.id) := by
      rw [← hkr, ← Option.not_isSome_iff_eq_none]
    rw [hr1]
    exact or_congr Iff.rfl (and_congr Iff.rfl hr2)

theorem reaches_congr {E1 E2 : List (String × String)}
    (h : ∀ x, x ∈ E1 ↔ x ∈ E2) (a b : String) :
    Reaches E1 a b ↔ Reaches E2 a b :=
  ⟨Relation.ReflTransGen.mono (fun x y hxy => (h (x, y)).1 hxy),
   Relation.ReflTransGen.mono (fun x y hxy => (h (x, y)).2 hxy)⟩

/-! ## Helper lemmas: operation sequences (for the invariant claim) -/

theorem applyOps_nil (g : ThreadGraph) : applyOps g [] = some g := rfl

theorem applyOps_cons (g : ThreadGraph) (o : Op) (ops : List Op) :
    applyOps g (o :: ops) = (applyOp g o).bind (fun g2 => applyOps g2 ops) := by
  cases h : applyOp g o <;> simp [applyOps, List.foldlM_cons, h]

theorem idsSeen_node_cons (p : Post) (ops : List Op) :
    idsSeen (Op.node p :: ops) = p.id :: idsSeen ops := by
  simp [idsSeen]

theorem idsSeen_edge_cons (a b : String) (ops : List Op) :
    idsSeen (Op.edge a b :: ops) = a :: b :: idsSeen ops := by
  simp [idsSeen]

theorem add_edge_lookup_back {g g' : ThreadGraph} {a b id : String}
    (h : g.add_edge a b = some g') (hs : (mapFind g'.node_map id).isSome) :
    (mapFind g.node_map id).isSome ∨ id = a := by
  rcases add_edge_some_cases h with ⟨fi, ti, _, _, rfl⟩ | ⟨ti, _, _, rfl⟩ | ⟨hba, _, rfl⟩
  · exact Or.inl hs
  · rw [show ({ placeholderExtend g a with
        edges := g.edges ++ [(g.nodes.length, ti)] } : ThreadGraph).node_map =
        (placeholderExtend g a).node_map from rfl, mapFind_placeholderExtend] at hs
    by_cases hai : a = id
    · exact Or.inr hai.symm
    · rw [if_neg hai] at hs
      exact Or.inl hs
  · rw [show ({ placeholderExtend g a with
        edges := g.edges ++ [(g.nodes.length, g.nodes.length)] } : ThreadGraph).node_map =
        (placeholderExtend g a).node_map from rfl, mapFind_placeholderExtend] at hs
    by_cases hai : a = id
    · exact Or.inr hai.symm
    · rw [if_neg hai] at hs
      exact Or.inl hs

theorem add_edge_lookup_from {g g' : ThreadGraph} {a b : String}
    (h : g.add_edge a b = some g') : (mapFind g'.node_map a).isSome := by
  rcases add_edge_some_cases h with ⟨fi, ti, hfa, _, rfl⟩ | ⟨ti, _, _, rfl⟩ | ⟨hba, _, rfl⟩
  · rw [show ({ g with edges := g.edges ++ [(fi, ti)] } : ThreadGraph).node_map =
      g.node_map from rfl, hfa]
    rfl
  · rw [show ({ placeholderExtend g a with
        edges := g.edges ++ [(g.nodes.length, ti)] } : ThreadGraph).node_map =
        (placeholderExtend g a).node_map from rfl, mapFind_placeholderExtend, if_pos rfl]
    rfl
  · rw [show ({ placeholderExtend g a with
        edges := g.edges ++ [(g.nodes.length, g.nodes.length)] } : ThreadGraph).node_map =
        (placeholderExtend g a).node_map from rfl, mapFind_placeholderExtend, if_pos rfl]
    rfl

theorem add_edge_lookup_to {g g' : ThreadGraph} {a b : String}
    (h : g.add_edge a b = some g') : (mapFind g'.node_map b).isSome := by
  rcases add_edge_some_cases h with ⟨fi, ti, _, hfb, rfl⟩ | ⟨ti, _, hfb, rfl⟩ | ⟨hba, _, rfl⟩
  · rw [show ({ g with edges := g.edges ++ [(fi, ti)] } : ThreadGraph).node_map =
      g.node_map from rfl, hfb]
    rfl
  · rw [show ({ placeholderExtend g a with
        edges := g.edges ++ [(g.nodes.length, ti)] } : ThreadGraph).node_map =
        (placeholderExtend g a).node_map from rfl, mapFind_placeholderExtend]
    by_cases hab : a = b
    · rw [if_pos hab]
      rfl
    · rw [if_neg hab, hfb]
      rfl
  · rw [show ({ placeholderExtend g a with
        edges := g.edges ++ [(g.nodes.length, g.nodes.length)] } : ThreadGraph).node_map =
        (placeholderExtend g a).node_map from rfl, mapFind_placeholderExtend,
      if_pos hba.symm]
    rfl

theorem applyOps_spec : ∀ (ops : List Op) (g0 : ThreadGraph), WF g0 →
    ∀ g, applyOps g0 ops = some g → WF g ∧
      (∀ id, (mapFind g.node_map id).isSome ↔
        (mapFind g0.node_map id).isSome ∨ id ∈ idsSeen ops) := by
  intro ops
  induction ops with
  | nil =>
    intro g0 w g h
    rw [applyOps_nil] at h
    rw [← Option.some.inj h]
    exact ⟨w, fun id => by simp [idsSeen]⟩
  | cons o rest ih =>
    intro g0 w g h
    rw [applyOps_cons] at h
    cases ho : applyOp g0 o with
    | none =>
      rw [ho] at h
      cases h
    | some g1 =>
      rw [ho, Option.some_bind] at h
      have w1 : WF g1 := by
        cases o with
        | node p =>
          have hg1 : g1 = (g0.add_node p).2 := (Option.some.inj ho).symm
          rw [hg1]
          exact wf_add_node w p
        | edge a b => exact wf_add_edge w ho
      obtain ⟨wg, hkeys⟩ := ih g1 w1 g h
      refine ⟨wg, fun id => ?_⟩
      rw [hkeys id]
      cases o with
      | node p =>
        have hg1 : g1 = (g0.add_node p).2 := (Option.some.inj ho).symm
        subst hg1
        rw [idsSeen_node_cons]
        constructor
        · rintro (hs | hmem)
          · cases hfound : mapFind g0.node_map p.id with
            | some idx =>
              rw [add_node_of_found hfound] at hs
              exact Or.inl hs
            | none =>
              rw [add_node_of_new hfound, mapFind_cons] at hs
              by_cases hid : p.id = id
              · exact Or.inr (by rw [← hid]; exact List.mem_cons_self p.id _)
              · rw [if_neg hid] at hs
                exact Or.inl hs
          · exact Or.inr (List.mem_cons_of_mem p.id hmem)
        · rintro (hs | hmem)
          · obtain ⟨i, hi⟩ := Option.isSome_iff_exists.1 hs
            exact Or.inl (by rw [add_node_lookup_mono p hi]; rfl)
          · rcases List.mem_cons.1 hmem with hid | hmem2
            · exact Or.inl (by rw [hid, add_node_lookup_self g0 p]; rfl)
            · exact Or.inr hmem2
      | edge a b =>
        have hedge : g0.add_edge a b = some g1 := ho
        rw [idsSeen_edge_cons]
        constructor
        · rintro (hs | hmem)
          · rcases add_edge_lookup_back hedge hs with hs0 | hai
            · exact Or.inl hs0
            · exact Or.inr (by rw [hai]; exact List.mem_cons_self a _)
          · exact Or.inr (List.mem_cons_of_mem a (List.mem_cons_of_mem b hmem))
        · rintro (hs | hmem)
          · obtain ⟨i, hi⟩ := Option.isSome_iff_exists.1 hs
            exact Or.inl (by rw [add_edge_lookup_mono hedge hi]; rfl)
          · rcases List.mem_cons.1 hmem with hid | hmem2
            · exact Or.inl (by rw [hid]; exact add_edge_lookup_from hedge)
            · rcases List.mem_cons.1 hmem2 with hid | hmem3
              · exact Or.inl (by rw [hid]; exact add_edge_lookup_to hedge)
              · exact Or.inr hmem3

/-! ## Helper lemmas: DFS and traverse -/

theorem dfsLoop_succ_cons (g : ThreadGraph) (k v : Nat) (rest disc : List Nat) :
    dfsLoop g (k + 1) (v :: rest) disc =
      if v ∈ disc then dfsLoop g k rest disc
      else v :: dfsLoop g k
        (((g.neighbors v).filter (fun w => !(disc.contains w))).reverse ++ rest)
        (v :: disc) := rfl

theorem dfsFrom_head (g : ThreadGraph) (start : Nat) :
    ∃ tail, g.dfsFrom start = start :: tail := by
  unfold ThreadGraph.dfsFrom
  have hk : dfsFuel g = ((g.nodes.length + g.edges.length) * (g.edges.length + 1) +
      g.nodes.length + g.edges.length) + 1 := rfl
  rw [hk, dfsLoop_succ_cons, if_neg (List.not_mem_nil start)]
  exact ⟨_, rfl⟩

theorem traverse_get? (g : ThreadGraph) (i : Nat) :
    (g.traverse).get? i = (g.threads.get? i).map (fun s => g.rootPair s) := by
  unfold ThreadGraph.traverse
  exact List.get?_map _ _ _

theorem traverse_length (g : ThreadGraph) : (g.traverse).length = g.threads.length :=
  List.length_map _ _

/-! ## Helper lemmas: text processing -/

theorem empty_append_str (s : String) : "" ++ s = s := by
  cases s
  rfl

theorem foldl_enumFrom_join (f : String → String) : ∀ (ts : List String) (k : Nat) (acc : String),
    0 < k →
    (List.enumFrom k ts).foldl
      (fun acc it => (if 0 < it.1 then acc ++ "\n" else acc) ++ f it.2) acc =
      ts.foldl (fun acc x => acc ++ "\n" ++ f x) acc := by
  intro ts
  induction ts with
  | nil => intro k acc _; rfl
  | cons t ts ih =>
    intro k acc hk
    rw [show List.enumFrom k (t :: ts) = (k, t) :: List.enumFrom (k + 1) ts from rfl]
    simp only [List.foldl_cons]
    rw [if_pos hk]
    exact ih (k + 1) _ (Nat.succ_pos k)

theorem process_raw_content (thread_id : String) (content : List String) (forum_name : String)
    (use_sentencepiece : Bool) (tok : String → Nat) :
    (process thread_id content forum_name use_sentencepiece tok).raw_content =
      specNewlineJoin (content.map clean_text) := by
  cases content with
  | nil => rfl
  | cons t ts =>
    show (List.enum (t :: ts)).foldl
        (fun acc it => (if 0 < it.1 then acc ++ "\n" else acc) ++ clean_text it.2) "" =
      specNewlineJoin ((t :: ts).map clean_text)
    rw [show List.enum (t :: ts) = (0, t) :: List.enumFrom 1 ts from rfl]
    simp only [List.foldl_cons]
    rw [if_neg (by omega), empty_append_str, foldl_enumFrom_join clean_text ts 1 _ Nat.one_pos]
    show ts.foldl (fun acc x => acc ++ "\n" ++ clean_text x) (clean_text t) =
      (ts.map clean_text).foldl (fun acc x => acc ++ "\n" ++ x) (clean_text t)
    rw [List.foldl_map]

/-! ## Helper lemmas: chunked writing -/

theorem chunksOfAux_cons {α : Type} (k n : Nat) (a : α) (t : List α) :
    chunksOfAux k (n + 1) (a :: t) =
      List.take k (a :: t) :: chunksOfAux k n (List.drop k (a :: t)) := rfl

theorem chunksOfAux_join {α : Type} {k : Nat} (hk : 1 ≤ k) :
    ∀ (fuel : Nat) (l : List α), l.length ≤ fuel → (chunksOfAux k fuel l).flatten = l := by
  intro fuel
  induction fuel with
  | zero =>
    intro l hl
    cases l with
    | nil => rfl
    | cons a t => simp at hl
  | succ n ih =>
    intro l hl
    cases l with
    | nil => rfl
    | cons a t =>
      rw [chunksOfAux_cons, List.flatten_cons, ih _ ?_, List.take_append_drop]
      rw [List.length_drop]
      simp only [List.length_cons] at hl ⊢
      omega

theorem div_ceil_succ_chunk {m k : Nat} (hk : 1 ≤ k) (hm : 1 ≤ m) :
    div_ceil m k = 1 + div_ceil (m - k) k := by
  unfold div_ceil
  rcases Nat.le_total m k with h | h
  · rw [Nat.sub_eq_zero_of_le h]
    have h1 : (0 + k - 1) / k = 0 := Nat.div_eq_of_lt (by omega)
    rw [h1]
    rw [show m + k - 1 = (m - 1) + k from by omega, Nat.add_div_right _ (by omega)]
    rw [Nat.div_eq_of_lt (by omega : m - 1 < k)]
  · rw [show m + k - 1 = (m - k + k - 1) + k from by omega, Nat.add_div_right _ (by omega)]
    omega

theorem chunksOfAux_length {α : Type} {k : Nat} (hk : 1 ≤ k) :
    ∀ (fuel : Nat) (l : List α), l.length ≤ fuel →
      (chunksOfAux k fuel l).length = div_ceil l.length k := by
  intro fuel
  induction fuel with
  | zero =>
    intro l hl
    cases l with
    | nil =>
      show 0 = div_ceil 0 k
      unfold div_ceil
      rw [Nat.div_eq_of_lt (by omega)]
    | cons a t => simp at hl
  | succ n ih =>
    intro l hl
    cases l with
    | nil =>
      show 0 = div_ceil 0 k
      unfold div_ceil
      rw [Nat.div_eq_of_lt (by omega)]
    | cons a t =>
      rw [chunksOfAux_cons, List.length_cons, ih _ ?_]
      · rw [List.length_drop]
        have := div_ceil_succ_chunk hk (show 1 ≤ (a :: t).length by simp)
        simp only [List.length_cons] at this ⊢
        omega
      · rw [List.length_drop]
        simp only [List.length_cons] at hl ⊢
        omega

theorem chunksOf_join {α : Type} {k : Nat} (hk : 1 ≤ k) (l : List α) :
    (chunksOf k l).flatten = l :=
  chunksOfAux_join hk l.length l (Nat.le_refl _)

theorem chunksOf_length {α : Type} {k : Nat} (hk : 1 ≤ k) (l : List α) :
    (chunksOf k l).length = div_ceil l.length k :=
  chunksOfAux_length hk l.length l (Nat.le_refl _)

theorem one_le_div_ceil {n s : Nat} (hs : 1 ≤ s) (hn : 1 ≤ n) : 1 ≤ div_ceil n s := by
  unfold div_ceil
  rw [Nat.le_div_iff_mul_le (by omega : 0 < s)]
  omega

theorem div_ceil_mul_ge {n s : Nat} (hs : 1 ≤ s) : n ≤ s * div_ceil n s := by
  unfold div_ceil
  have h3 := Nat.div_add_mod (n + s - 1) s
  have h1 : (n + s - 1) % s < s := Nat.mod_lt _ (by omega)
  omega

theorem div_ceil_div_ceil_le {n s : Nat} (hs : 1 ≤ s) (hn : 1 ≤ n) :
    div_ceil n (div_ceil n s) ≤ s := by
  have hc1 : 1 ≤ div_ceil n s := one_le_div_ceil hs hn
  have hmul : n ≤ s * div_ceil n s := div_ceil_mul_ge hs
  show (n + div_ceil n s - 1) / div_ceil n s ≤ s
  rw [Nat.div_le_iff_le_mul_add_pred (by omega : 0 < div_ceil n s)]
  have hcomm : s * div_ceil n s = div_ceil n s * s := Nat.mul_comm _ _
  omega

theorem get_chunk_size_eq (bytes : Nat) (data : List ThreadPost) :
    get_chunk_size bytes data =
      div_ceil data.length (max (div_ceil bytes MAX_BYTES_PER_FILE) 1) := rfl

theorem bigString_length (n : Nat) : (bigString n).length = n := by
  show (String.mk (List.replicate n 'a')).data.length = n
  simp

theorem sumBytes_dataA : sumBytes dataA = 367001600 := by
  unfold sumBytes dataA bigPostA
  simp [bigString_length]

theorem sumBytes_dataB : sumBytes dataB = 104857602 := by
  unfold sumBytes dataB bigPostB onePost
  simp [bigString_length]
  decide

theorem sumBytes_firstShardB : sumBytes [bigPostB, onePost] = 104857601 := by
  unfold sumBytes bigPostB onePost
  simp [bigString_length]
  decide

theorem shards_dataA_length : (write_jsonl_shards dataA 367001600).length = 3 := by
  unfold write_jsonl_shards
  rw [show get_chunk_size 367001600 dataA = 2 from by
    unfold get_chunk_size
    rw [show dataA.length = 5 from rfl]
    decide]
  rw [if_neg (by rw [show dataA.length = 5 from rfl]; omega)]
  rw [chunksOf_length (by omega), show dataA.length = 5 from rfl]
  decide

theorem shards_dataB : write_jsonl_shards dataB 104857602 = [[bigPostB, onePost], [onePost]] := by
  unfold write_jsonl_shards
  rw [show get_chunk_size 104857602 dataB = 2 from by
    unfold get_chunk_size
    rw [show dataB.length = 3 from rfl]
    decide]
  rw [if_neg (by rw [show dataB.length = 3 from rfl]; omega)]
  rfl

/-! ## Claim theorems -/

/-- C1 (counterexample): inserting two Posts with the same id "1" via
`add_node`, the stored payload is the EARLIER post, not the later one:
the claim's "last write wins" fails at this concrete input (the index,
however, is indeed reused). -/
theorem add_node_last_write_counterexample :
    postDup1.id = postDup2.id ∧
    postDup1.pagetext ≠ postDup2.pagetext ∧
    ((emptyGraph.add_node postDup1).2.add_node postDup2).1 = (emptyGraph.add_node postDup1).1 ∧
    demoG1dup.allthreads = [postDup1] ∧
    demoG1dup.allthreads ≠ [postDup2] := by
  decide

/-- C1 (amended): re-inserting a Post whose id is already present never
creates a second node index and leaves the graph unchanged: the index
returned is the one of the first insertion and the payload stored remains
the EARLIER Post's payload (first write wins, not last write wins). -/
theorem add_node_reinsert_first_write_wins (g : ThreadGraph) (p q : Post) (h : q.id = p.id) :
    ((g.add_node p).2).add_node q = ((g.add_node p).1, (g.add_node p).2) := by
  apply add_node_of_found
  rw [h]
  exact add_node_lookup_self g p

/-- Witness for the amended C1 at the concrete duplicate posts. -/
theorem add_node_reinsert_first_write_wins_witness :
    postDup2.id = postDup1.id ∧
    ((emptyGraph.add_node postDup1).2).add_node postDup2 =
      ((emptyGraph.add_node postDup1).1, (emptyGraph.add_node postDup1).2) :=
  ⟨by decide, add_node_reinsert_first_write_wins emptyGraph postDup1 postDup2 (by decide)⟩

/-- C2: for any two permutations of a fixed Post set run through the
construction flow (all posts inserted as nodes with thread posts
registered as roots, then one edge per non-thread post from its parent id
to its id), the resulting id-labelled edge sets, root id sets, and
per-root reachable id sets coincide. -/
theorem buildGraph_permutation_invariant {l1 l2 : List Post} {g1 g2 : ThreadGraph}
    (hperm : l1.Perm l2) (h1 : buildGraph l1 = some g1) (h2 : buildGraph l2 = some g2) :
    (∀ e, e ∈ edgeIds g1 ↔ e ∈ edgeIds g2) ∧
    (∀ r, r ∈ rootIds g1 ↔ r ∈ rootIds g2) ∧
    (∀ a b, Reaches (edgeIds g1) a b ↔ Reaches (edgeIds g2) a b) := by
  obtain ⟨_, hE1, hR1⟩ := buildGraph_spec h1
  obtain ⟨_, hE2, hR2⟩ := buildGraph_spec h2
  have hpermE : ∀ e, e ∈ edgeIds g1 ↔ e ∈ edgeIds g2 := by
    intro e
    rw [hE1, hE2]
    exact ((hperm.filter _).map _).mem_iff
  refine ⟨hpermE, ?_, fun a b => reaches_congr hpermE a b⟩
  intro r
  rw [hR1 r, hR2 r]
  have hA := (((hperm.filter (fun p => p.is_thread)).map (fun p => p.id)).mem_iff (a := r))
  have hB := (((hperm.filter (fun p => !p.is_thread)).map
    (fun p => p.parent_post_id)).mem_iff (a := r))
  have hC := ((hperm.map (fun p => p.id)).mem_iff (a := r))
  tauto

/-- Witness for C2: a 3-post set (a thread, a reply, and an orphan reply
whose parent never appears) inserted in two different orders. -/
theorem buildGraph_permutation_invariant_witness :
    demoPosts1.Perm demoPosts2 ∧
    buildGraph demoPosts1 = some demoG1 ∧
    buildGraph demoPosts2 = some demoG2 ∧
    ((∀ e, e ∈ edgeIds demoG1 ↔ e ∈ edgeIds demoG2) ∧
     (∀ r, r ∈ rootIds demoG1 ↔ r ∈ rootIds demoG2) ∧
     (∀ a b, Reaches (edgeIds demoG1) a b ↔ Reaches (edgeIds demoG2) a b)) :=
  ⟨by decide, by decide, by decide,
    @buildGraph_permutation_invariant demoPosts1 demoPosts2 demoG1 demoG2
      (by decide) (by decide) (by decide)⟩

/-- C3: an `add_edge` whose parent id is unmapped (and whose child id is
mapped) synthesizes exactly one placeholder node for the parent id —
self-parented, with empty pagetext — registers it in the roots list, and a
subsequent `traverse` returns a pair for it whose text list starts with
the empty string; a further edge under the same parent id adds no node and
no payload. -/
theorem add_edge_missing_parent_placeholder (g : ThreadGraph) (from_id to_id : String)
    (ti : Nat) (w : WF g) (hfrom : mapFind g.node_map from_id = none)
    (hto : mapFind g.node_map to_id = some ti) :
    ∃ g', g.add_edge from_id to_id = some g' ∧
      g'.nodes.length = g.nodes.length + 1 ∧
      g'.allthreads = g.allthreads ++ [Post.placeholder from_id] ∧
      (Post.placeholder from_id).pagetext = "" ∧
      (Post.placeholder from_id).parent_post_id = from_id ∧
      g'.threads = g.threads ++ [g.nodes.length] ∧
      (∃ ts, (g'.traverse).get? g.threads.length = some (from_id, ts) ∧
        ts.head? = some "") ∧
      (∀ to2 ti2, mapFind g'.node_map to2 = some ti2 →
        ∃ g'', g'.add_edge from_id to2 = some g'' ∧
          g''.nodes.length = g'.nodes.length ∧ g''.allthreads = g'.allthreads ∧
          g''.threads = g'.threads) := by
  refine ⟨_, add_edge_absent hfrom hto, ?_, rfl, rfl, rfl, rfl, ?_, ?_⟩
  · show (g.nodes ++ [from_id]).length = g.nodes.length + 1
    simp
  · set g' : ThreadGraph := { placeholderExtend g from_id with
      edges := g.edges ++ [(g.nodes.length, ti)] } with hg'
    have hpair : g'.traverse.get? g.threads.length =
        some (from_id, (g'.dfsFrom g.nodes.length).map
          (fun i => (g'.allthreads.getD i default).pagetext)) := by
      rw [traverse_get?, show g'.threads = g.threads ++ [g.nodes.length] from rfl,
        get?_concat_self]
      have hw : g'.nodes.getD g.nodes.length "" = from_id := by
        rw [show g'.nodes = g.nodes ++ [from_id] from rfl]
        exact getD_of_get?_eq_some "" (get?_concat_self g.nodes from_id)
      show some (g'.rootPair g.nodes.length) = _
      unfold ThreadGraph.rootPair
      rw [hw]
    refine ⟨_, hpair, ?_⟩
    obtain ⟨tail, htail⟩ := dfsFrom_head g' g.nodes.length
    rw [htail, List.map_cons, List.head?_cons]
    have hget : g'.allthreads.get? g.nodes.length = some (Post.placeholder from_id) := by
      rw [show g'.allthreads = g.allthreads ++ [Post.placeholder from_id] from rfl, ← w.len_eq]
      exact get?_concat_self g.allthreads (Post.placeholder from_id)
    rw [getD_of_get?_eq_some default hget]
    rfl
  · intro to2 ti2 hto2
    have hfrom2 : mapFind ({ placeholderExtend g from_id with
        edges := g.edges ++ [(g.nodes.length, ti)] } : ThreadGraph).node_map from_id =
        some g.nodes.length := by
      rw [show ({ placeholderExtend g from_id with
          edges := g.edges ++ [(g.nodes.length, ti)] } : ThreadGraph).node_map =
          (from_id, g.nodes.length) :: g.node_map from rfl, mapFind_cons, if_pos rfl]
    exact ⟨_, add_edge_present hfrom2 hto2, rfl, rfl, rfl⟩

/-- Witness for C3: the graph holding only comment "2"; the edge from the
never-inserted parent "99" to "2". -/
theorem add_edge_missing_parent_placeholder_witness :
    mapFind demoG3.node_map "99" = none ∧
    mapFind demoG3.node_map "2" = some 0 ∧
    (∃ g', demoG3.add_edge "99" "2" = some g' ∧
      g'.nodes.length = demoG3.nodes.length + 1 ∧
      g'.allthreads = demoG3.allthreads ++ [Post.placeholder "99"] ∧
      (Post.placeholder "99").pagetext = "" ∧
      (Post.placeholder "99").parent_post_id = "99" ∧
      g'.threads = demoG3.threads ++ [demoG3.nodes.length] ∧
      (∃ ts, (g'.traverse).get? demoG3.threads.length = some ("99", ts) ∧
        ts.head? = some "") ∧
      (∀ to2 ti2, mapFind g'.node_map to2 = some ti2 →
        ∃ g'', g'.add_edge "99" to2 = some g'' ∧
          g''.nodes.length = g'.nodes.length ∧ g''.allthreads = g'.allthreads ∧
          g''.threads = g'.threads)) :=
  ⟨by decide, by decide,
    add_edge_missing_parent_placeholder demoG3 "99" "2" 0
      (wf_add_node wf_empty pChild) (by decide) (by decide)⟩

/-- C4 (counterexample): after a `traverse()` call on a nonempty graph the
internal id map, node storage and payload array are NOT cleared — they are
exactly as before the call, so the claim that traversal resets the
structure fails at this concrete input. -/
theorem traverse_clears_state_counterexample :
    (demoG3.traverse_call).2.node_map ≠ [] ∧
    (demoG3.traverse_call).2.allthreads ≠ [] ∧
    (demoG3.traverse_call).2.nodes ≠ [] ∧
    (demoG3.traverse_call).2 = demoG3 := by
  decide

/-- C4 (amended): `traverse` borrows the graph immutably, so after the
call every internal map and vector — the id-to-index map, the payload
array, the roots list and the node/edge storage — is unchanged (in
particular, nothing is cleared). -/
theorem traverse_call_preserves_state (g : ThreadGraph) :
    (g.traverse_call).2 = g ∧
    (g.traverse_call).2.node_map = g.node_map ∧
    (g.traverse_call).2.allthreads = g.allthreads ∧
    (g.traverse_call).2.threads = g.threads ∧
    (g.traverse_call).2.nodes = g.nodes ∧
    (g.traverse_call).2.edges = g.edges :=
  ⟨rfl, rfl, rfl, rfl, rfl, rfl⟩

/-- C5 (counterexample): with five records of 0.7 budgets each (3.5 budgets
total, so the claimed shard count is ceil(B/M) = 4) the writer produces 3
shard files, and with records of sizes (M, 1, 1) none of which exceeds the
budget, the first produced shard holds M+1 bytes — both halves of the
claim fail on these concrete inputs. -/
theorem write_jsonl_shards_counterexample :
    (sumBytes dataA > MAX_BYTES_PER_FILE ∧
      div_ceil (sumBytes dataA) MAX_BYTES_PER_FILE = 4 ∧
      (write_jsonl_shards dataA (sumBytes dataA)).length = 3 ∧
      (write_jsonl_shards dataA (sumBytes dataA)).length ≠
        div_ceil (sumBytes dataA) MAX_BYTES_PER_FILE) ∧
    (bigPostB.raw_content.length ≤ MAX_BYTES_PER_FILE ∧
      onePost.raw_content.length ≤ MAX_BYTES_PER_FILE ∧
      (write_jsonl_shards dataB (sumBytes dataB)).get? 0 = some [bigPostB, onePost] ∧
      sumBytes [bigPostB, onePost] > MAX_BYTES_PER_FILE) := by
  constructor
  · rw [sumBytes_dataA]
    refine ⟨by decide, by decide, shards_dataA_length, ?_⟩
    rw [shards_dataA_length]
    decide
  · refine ⟨?_, ?_, ?_, ?_⟩
    · rw [show bigPostB.raw_content.length = (bigString 104857600).length from rfl,
        bigString_length]
      decide
    · decide
    · rw [sumBytes_dataB, shards_dataB]
      rfl
    · rw [sumBytes_firstShardB]
      decide

/-- C5 (amended): the writer splits by record count, not bytes: when the
byte total is within the budget it produces exactly one shard holding all
records; otherwise it produces `ceil(n / chunk_size)` shards (with
`chunk_size = ceil(n / max(ceil(B/M), 1))` records each), which is at most
`ceil(B/M)`; the shards always concatenate back to the input. A shard may
exceed M bytes even when no single record does (see the counterexample). -/
theorem write_jsonl_shards_amended (data : List ThreadPost) (bytes : Nat) :
    (bytes ≤ MAX_BYTES_PER_FILE → write_jsonl_shards data bytes = [data]) ∧
    (write_jsonl_shards data bytes).flatten = data ∧
    (write_jsonl_shards data bytes).length ≤ max (div_ceil bytes MAX_BYTES_PER_FILE) 1 ∧
    (write_jsonl_shards data bytes).length =
      (if data.length ≤ get_chunk_size bytes data then 1
       else div_ceil data.length (get_chunk_size bytes data)) := by
  have hM : 1 ≤ MAX_BYTES_PER_FILE := by decide
  have hk1 : 1 ≤ max (div_ceil bytes MAX_BYTES_PER_FILE) 1 := Nat.le_max_right _ 1
  by_cases hif : data.length ≤ get_chunk_size bytes data
  · refine ⟨fun _ => ?_, ?_, ?_, ?_⟩
    · unfold write_jsonl_shards
      rw [if_pos hif]
    · unfold write_jsonl_shards
      rw [if_pos hif]
      simp
    · unfold write_jsonl_shards
      rw [if_pos hif]
      simp only [List.length_singleton]
      exact hk1
    · unfold write_jsonl_shards
      rw [if_pos hif, if_pos hif]
      rfl
  · have hn1 : 1 ≤ data.length := by
      rcases Nat.eq_zero_or_pos data.length with h0 | h1
      · exfalso
        exact hif (by omega)
      · exact h1
    have hcs1 : 1 ≤ get_chunk_size bytes data := by
      rw [get_chunk_size_eq]
      exact one_le_div_ceil hk1 hn1
    refine ⟨fun hbytes => ?_, ?_, ?_, ?_⟩
    · exfalso
      have hq : div_ceil bytes MAX_BYTES_PER_FILE ≤ 1 := by
        show (bytes + MAX_BYTES_PER_FILE - 1) / MAX_BYTES_PER_FILE ≤ 1
        rw [Nat.div_le_iff_le_mul_add_pred (by omega)]
        omega
      have hcs : get_chunk_size bytes data = data.length := by
        rw [get_chunk_size_eq, Nat.max_eq_right hq]
        show (data.length + 1 - 1) / 1 = data.length
        simp
      rw [hcs] at hif
      omega
    · unfold write_jsonl_shards
      rw [if_neg hif]
      exact chunksOf_join hcs1 data
    · unfold write_jsonl_shards
      rw [if_neg hif, chunksOf_length hcs1, get_chunk_size_eq]
      exact div_ceil_div_ceil_le hk1 hn1
    · unfold write_jsonl_shards
      rw [if_neg hif, if_neg hif, chunksOf_length hcs1]

/-- Witness for the amended C5: one one-byte record under budget gives one
shard holding everything. -/
theorem write_jsonl_shards_amended_witness :
    1 ≤ MAX_BYTES_PER_FILE ∧ write_jsonl_shards [onePost] 1 = [[onePost]] :=
  ⟨by decide, (write_jsonl_shards_amended [onePost] 1).1 (by decide)⟩

/-- C6: the normalization pipeline (`MAIN_REGEX` replacement, whitespace
collapse, trim) maps each of the specification's reference inputs to its
reference output. -/
theorem clean_text_reference_cases :
    clean_text "hello--world" = "hello world" ∧
    clean_text "check http://example.com here" = "check here" ∧
    clean_text "too    many    spaces" = "too many spaces" ∧
    clean_text "#Hashtag5, #Hashtag2, #Hashtag  " = "" :=
  ⟨by decide, by decide, by decide, by decide⟩

/-- C7: `process` returns exactly one record whose `raw_content` is the
newline-join, in order, of the normalized texts, whose `length` is the
tokenizer count of `raw_content` when the tokenizer flag is set and the
whitespace word count of `raw_content` otherwise, and whose `thread_id`
and `source` are the given thread id and forum name. -/
theorem process_spec (thread_id : String) (content : List String) (forum_name : String)
    (use_sentencepiece : Bool) (tok : String → Nat) :
    (process thread_id content forum_name use_sentencepiece tok).raw_content =
      specNewlineJoin (content.map clean_text) ∧
    (process thread_id content forum_name use_sentencepiece tok).length =
      (if use_sentencepiece then
        tok (process thread_id content forum_name use_sentencepiece tok).raw_content
       else
        wordCount (process thread_id content forum_name use_sentencepiece tok).raw_content) ∧
    (process thread_id content forum_name use_sentencepiece tok).thread_id = thread_id ∧
    (process thread_id content forum_name use_sentencepiece tok).source = forum_name :=
  ⟨process_raw_content thread_id content forum_name use_sentencepiece tok, rfl, rfl, rfl⟩

/-- C8: a line yields a Post exactly when the JSON parse (modelled by the
abstract `parse`, succeeding on well-formed lines with all five string
fields) succeeds — `from_json_struct` itself never rejects; the Post's
`is_thread` is true exactly when the line's field is the string "Y"; and
dropping one malformed line leaves the processing of all other lines
untouched. -/
theorem parse_pipeline_spec (parse : String → Option JsonStruct) :
    (∀ line, ((parse line).bind Post.from_json_struct).isSome ↔ (parse line).isSome) ∧
    (∀ j p, Post.from_json_struct j = some p → (p.is_thread = true ↔ j.is_thread = "Y")) ∧
    (∀ pre bad rest, parse bad = none →
      process_single_file parse (pre ++ bad :: rest) =
        process_single_file parse (pre ++ rest)) := by
  refine ⟨?_, ?_, ?_⟩
  · intro line
    cases h : parse line with
    | none => simp [h]
    | some j => simp [h, Post.from_json_struct]
  · intro j p hp
    have hpe : p = { id := j.id, is_thread := j.is_thread == "Y", pagetext := j.pagetext,
                     parent_post_id := j.parent_post_id, root_post_id := j.root_post_id } :=
      (Option.some.inj hp).symm
    rw [hpe]
    show (j.is_thread == "Y") = true ↔ j.is_thread = "Y"
    simp
  · intro pre bad rest hbad
    unfold process_single_file
    rw [List.filterMap_append, List.filterMap_append, List.filterMap_cons]
    simp [hbad]

/-- Witness for C8 at a concrete parser: the malformed middle line is
dropped without affecting the others, and the "Y" flag maps to true. -/
theorem parse_pipeline_spec_witness :
    parseDemo "junk" = none ∧
    process_single_file parseDemo ["goodY", "junk", "goodN"] =
      process_single_file parseDemo ["goodY", "goodN"] ∧
    Post.from_json_struct
      { id := "1", is_thread := "Y", pagetext := "t",
         parent_post_id := "1", root_post_id := "1" } =
      some { id := "1", is_thread := true, pagetext := "t",
              parent_post_id := "1", root_post_id := "1" } ∧
    (({ id := "1", is_thread := true, pagetext := "t",
         parent_post_id := "1", root_post_id := "1" } : Post).is_thread = true ↔
      ({ id := "1", is_thread := "Y", pagetext := "t",
          parent_post_id := "1", root_post_id := "1" } : JsonStruct).is_thread = "Y") :=
  ⟨by decide,
   (parse_pipeline_spec parseDemo).2.2 ["goodY"] "junk" ["goodN"] (by decide),
   by decide,
   (parse_pipeline_spec parseDemo).2.1 _ _ (by decide)⟩

/-- C9: every successful sequence of `add_node`/`add_edge` operations from
the empty graph yields a state where `node_map` is a bijection between the
ids seen in the operations and the node indices 0..n-1, and the payload
array is parallel to the node storage: equal length, and the Post at index
i carries the id that `node_map` sends to i (which is also node i's
weight). -/
theorem graph_ops_invariant (ops : List Op) (g : ThreadGraph)
    (h : applyOps emptyGraph ops = some g) :
    (∀ id, (mapFind g.node_map id).isSome ↔ id ∈ idsSeen ops) ∧
    (∀ id i, mapFind g.node_map id = some i →
      i < g.nodes.length ∧ g.nodes.get? i = some id) ∧
    (∀ id1 id2 i, mapFind g.node_map id1 = some i → mapFind g.node_map id2 = some i →
      id1 = id2) ∧
    (∀ i, i < g.nodes.length → ∃ id, mapFind g.node_map id = some i) ∧
    g.allthreads.length = g.nodes.length ∧
    (∀ i p, g.allthreads.get? i = some p →
      mapFind g.node_map p.id = some i ∧ g.nodes.get? i = some p.id) := by
  obtain ⟨wg, hkeys⟩ := applyOps_spec ops emptyGraph wf_empty g h
  refine ⟨?_, ?_, ?_, ?_, wg.len_eq, ?_⟩
  · intro id
    rw [hkeys id]
    simp [emptyGraph, mapFind]
  · intro id i hi
    exact ⟨lt_of_get?_eq_some (wg.lookup_get id i hi), wg.lookup_get id i hi⟩
  · intro id1 id2 i h1 h2
    have e2 := wg.lookup_get id2 i h2
    rw [wg.lookup_get id1 i h1] at e2
    exact Option.some.inj e2
  · intro i hi
    have hi2 : i < g.allthreads.length := by
      rw [wg.len_eq]
      exact hi
    exact ⟨(g.allthreads.get ⟨i, hi2⟩).id,
      wg.payload_lookup i _ (List.get?_eq_get hi2)⟩
  · intro i p hp
    exact ⟨wg.payload_lookup i p hp, wg.payload_get i p hp⟩

/-- Witness for C9: two inserts, a normal edge and a placeholder-creating
edge, applied from the empty graph. -/
theorem graph_ops_invariant_witness :
    applyOps emptyGraph demoOps = some demoG9 ∧
    ((∀ id, (mapFind demoG9.node_map id).isSome ↔ id ∈ idsSeen demoOps) ∧
     (∀ id i, mapFind demoG9.node_map id = some i →
       i < demoG9.nodes.length ∧ demoG9.nodes.get? i = some id) ∧
     (∀ id1 id2 i, mapFind demoG9.node_map id1 = some i →
       mapFind demoG9.node_map id2 = some i → id1 = id2) ∧
     (∀ i, i < demoG9.nodes.length → ∃ id, mapFind demoG9.node_map id = some i) ∧
     demoG9.allthreads.length = demoG9.nodes.length ∧
     (∀ i p, demoG9.allthreads.get? i = some p →
       mapFind demoG9.node_map p.id = some i ∧ demoG9.nodes.get? i = some p.id)) :=
  ⟨by decide, graph_ops_invariant demoOps demoG9 (by decide)⟩

/-- C10: `traverse` returns exactly one pair per entry of the internal
roots list, in registration order (the pair at position i is computed from
the root index registered at position i); consequently a doubly-registered
root index yields a duplicated pair and the output length equals the
number of registrations. -/
theorem traverse_per_registration (g : ThreadGraph) :
    (g.traverse).length = g.threads.length ∧
    (∀ i, (g.traverse).get? i = (g.threads.get? i).map (fun s => g.rootPair s)) ∧
    (∀ i j, g.threads.get? i = g.threads.get? j →
      (g.traverse).get? i = (g.traverse).get? j) := by
  refine ⟨traverse_length g, traverse_get? g, ?_⟩
  intro i j hij
  rw [traverse_get? g i, traverse_get? g j, hij]

/-- Witness for C10: a graph whose single node is registered as a root
twice returns two identical pairs. -/
theorem traverse_per_registration_witness :
    demoG10.threads = [0, 0] ∧
    demoG10.threads.get? 0 = demoG10.threads.get? 1 ∧
    (demoG10.traverse).length = 2 ∧
    (demoG10.traverse).get? 0 = (demoG10.traverse).get? 1 :=
  ⟨by decide, by decide, by decide,
    (traverse_per_registration demoG10).2.2 0 1 (by decide)⟩

end ForumRs
